import Mathlib

/-!
Verification of libgamecommon's core stream subsystems (bit stream,
segmented stream, filtered stream) against their specification.

The repository ships the test corpus (`src/tests/test-bitstream.cpp`,
`src/tests/test-segmented_stream.cpp`, `src/tests/test-stream_filtered.cpp`)
and the public headers (`src/include/camoto/segmented_stream.hpp`), but the
implementation translation units (`bitstream.cpp`, `segmented_stream.cpp`,
`stream_filtered.cpp`, `substream.cpp`, `iostream_helpers`) are not present.
The definitions below are therefore modelled from the specification's
description of each component (spec.md §3, §4.1, §4.3, §4.4, §4.5), with the
test sources providing the concrete expected behaviour.

Bytes are modelled as `Nat` below 256, streams as `List Nat`, and bit
sequences as `List Nat` with entries below 2.
-/

namespace Camoto

/-- Endianness of a bit stream (`camoto::bitstream::littleEndian` /
`bigEndian`).  Modelled from the spec: §4.1 "Endianness semantics". -/
inductive BitEndian : Type where
  | le : BitEndian
  | be : BitEndian
deriving DecidableEq

/-- Value of a bit sequence read least-significant-bit first: the first bit
of the list is the low bit of the value.  Modelled from the spec: §4.1
"Little-endian: within a byte, the least-significant bit is first;
multi-byte values are assembled by taking successive chunks from successive
bytes, each contributing its low bits first". -/
def bitsLE : List Nat → Nat
  | [] => 0
  | b :: r => b + 2 * bitsLE r

/-- The `n` low bits of `v`, least-significant first. -/
def natBits : Nat → Nat → List Nat
  | 0, _ => []
  | n + 1, v => v % 2 :: natBits n (v / 2)

/-- Value of a bit sequence read most-significant-bit first at requested
width `n`: the first bit is bit `n-1` of the value.  When fewer than `n`
bits are supplied the missing low bits are zero, which is the partial value
a big-endian read assembles from the bits remaining before EOF.  Modelled
from the spec: §4.1 "Big-endian: within a byte, the most-significant bit is
consumed/produced first." -/
def bitsBE : Nat → List Nat → Nat
  | _, [] => 0
  | n, b :: r => b * 2 ^ (n - 1) + bitsBE (n - 1) r

/-- The stream-order bit sequence produced by writing the `n` low bits of
`v` at endianness `e` (LE emits the low bit first, BE the high bit first). -/
def valueBits (e : BitEndian) (n v : Nat) : List Nat :=
  match e with
  | .le => natBits n v
  | .be => (natBits n v).reverse

/-- The eight bits of one byte in stream order for endianness `e`. -/
def byteBits (e : BitEndian) (b : Nat) : List Nat :=
  valueBits e 8 b

/-- Pack eight stream-order bits back into a byte. -/
def byteVal (e : BitEndian) (c : List Nat) : Nat :=
  match e with
  | .le => bitsLE c
  | .be => bitsBE 8 c

/-- The bit sequence of a whole byte stream in stream order. -/
def bytesBits (e : BitEndian) : List Nat → List Nat
  | [] => []
  | b :: r => byteBits e b ++ bytesBits e r

/-- One `read(n)` of the bit stream positioned at the head of bit sequence
`L`: takes `min n |L|` bits and assembles them at endianness `e`.  Modelled
from the spec: §4.1 "read(n, &value) -> bits_read reads up to n bits
(1 ≤ n ≤ 32) into value.  If fewer bits are available before EOF, returns
the partial count." -/
def readVal (e : BitEndian) (n : Nat) (L : List Nat) : Nat :=
  match e with
  | .le => bitsLE (L.take n)
  | .be => bitsBE n (L.take n)

/-- Repeatedly read `n`-bit values until EOF, the final element being the
partial value assembled from the bits remaining before EOF (the reading
loop of `READ_BITS` in `src/tests/test-bitstream.cpp`).  The first argument
is recursion fuel, instantiated with the length of the bit sequence. -/
def readSeqAux (e : BitEndian) (n : Nat) : Nat → List Nat → List Nat
  | _, [] => []
  | 0, _ :: _ => []
  | fuel + 1, b :: r => readVal e n (b :: r) :: readSeqAux e n fuel ((b :: r).drop n)

/-- Read a whole bit sequence as `n`-bit values at endianness `e`. -/
def readSeqBits (e : BitEndian) (n : Nat) (L : List Nat) : List Nat :=
  if n = 0 then [] else readSeqAux e n L.length L

/-- Read a whole byte stream as `n`-bit values at endianness `e`. -/
def readSeqBytes (e : BitEndian) (n : Nat) (bytes : List Nat) : List Nat :=
  readSeqBits e n (bytesBits e bytes)

/-- The test corpus input bytes `0x12 0x34 0x56 0x78 0x9a`
(`DATA_BYTES` in `src/tests/test-bitstream.cpp`). -/
def dataBytes : List Nat := [0x12, 0x34, 0x56, 0x78, 0x9a]

/-- Pack a stream-order bit sequence into bytes, eight bits per byte, at
endianness `e` (any final short group packs as if zero-padded).  The first
argument is recursion fuel, instantiated with the length of the sequence. -/
def bitsBytesAux (e : BitEndian) : Nat → List Nat → List Nat
  | _, [] => []
  | 0, _ :: _ => []
  | fuel + 1, b :: r => byteVal e ((b :: r).take 8) :: bitsBytesAux e fuel ((b :: r).drop 8)

/-- Pack a stream-order bit sequence into bytes at endianness `e`. -/
def bitsBytes (e : BitEndian) (L : List Nat) : List Nat :=
  bitsBytesAux e L.length L

/-- Pad a bit sequence with zero bits up to the next byte boundary, as the
write tests do (`WRITE_BITS` in `src/tests/test-bitstream.cpp` pads the
final byte by writing a zero value of the remaining width). -/
def padTo8 (L : List Nat) : List Nat :=
  L ++ List.replicate ((8 - L.length % 8) % 8) 0

/-- The byte stream produced by writing each value of `vs` as an `n`-bit
value at endianness `e`, padding the final byte with zero bits.  Modelled
from the spec: §4.1 "write(n, value) writes the low n bits of value"
(`bitstream::write`, whose implementation is not under `src/`). -/
def writeBytes (e : BitEndian) (n : Nat) (vs : List Nat) : List Nat :=
  bitsBytes e (padTo8 ((vs.map (valueBits e n)).flatten))

/-- Store byte `b` at position `i` of a byte stream, extending the stream
with zero bytes when `i` is at or past the end (spec §4.1: "write past EOF
extends the underlying stream if it is writable"). -/
def putByte (l : List Nat) (i b : Nat) : List Nat :=
  if i < l.length then l.set i b
  else l ++ List.replicate (i - l.length) 0 ++ [b]

/-- Write-side state of a `camoto::bitstream`: the backing byte stream, the
byte position of the underlying cursor, and the buffered bits of the
current incomplete byte in stream order.  Modelled from the spec: §3
"Bit stream state" (bit buffer byte plus a count of valid bits, here kept
as the bit list itself). -/
structure BitWriter : Type where
  backing : List Nat
  pos : Nat
  pending : List Nat
deriving DecidableEq

/-- Emit every full byte of the buffered bits to the backing stream,
advancing the underlying cursor one byte per eight bits.  The first
argument is recursion fuel, instantiated with the length of the buffer. -/
def emitAux (e : BitEndian) : Nat → BitWriter → BitWriter
  | 0, st => st
  | fuel + 1, st =>
    if 8 ≤ st.pending.length then
      emitAux e fuel
        { backing := putByte st.backing st.pos (byteVal e (st.pending.take 8)),
          pos := st.pos + 1,
          pending := st.pending.drop 8 }
    else st

/-- `bitstream::write(n, value)`: append the low `n` bits of `v` to the bit
buffer and write out every completed byte.  Modelled from the spec: §4.1
(the implementation is not under `src/`). -/
def bwWrite (e : BitEndian) (st : BitWriter) (n v : Nat) : BitWriter :=
  let st' : BitWriter := { st with pending := st.pending ++ valueBits e n v }
  emitAux e st'.pending.length st'

/-- `bitstream::flush` on the write side.  Modelled from the spec: §4.1
"If a write does not end on a byte boundary and a flush occurs, the stream
reads the current byte at the underlying position, merges the buffered
partial bits with the bits kept from the file, writes it back, and leaves
the underlying cursor unchanged from its pre-flush position."  The buffered
bits stay valid so a later write continues at the same bit position. -/
def bwFlush (e : BitEndian) (st : BitWriter) : BitWriter :=
  if st.pending = [] then st
  else
    { st with
      backing := putByte st.backing st.pos
        (byteVal e (st.pending ++ (byteBits e (st.backing.getD st.pos 0)).drop st.pending.length)) }

/-- Origin of a bit stream seek (`std::ios::beg` / `cur` / `end`). -/
inductive SeekDir : Type where
  | beg : SeekDir
  | cur : SeekDir
  | fin : SeekDir
deriving DecidableEq

/-- Read-side position state of a `camoto::bitstream`: the backing bytes
and the absolute position in bits. -/
structure BitPos : Type where
  bytes : List Nat
  bitPos : Nat
deriving DecidableEq

/-- The absolute bit position a seek is measured from. -/
def seekBase (st : BitPos) (dir : SeekDir) : Int :=
  match dir with
  | .beg => 0
  | .cur => st.bitPos
  | .fin => 8 * st.bytes.length

/-- `bitstream::seek(off, dir)`: positions in bits, returning the new state
together with the resulting absolute bit position; seeking before the start
or past EOF is an error.  Modelled from the spec: §4.1 "seek(delta, from)
positions in bits" / "Seek past EOF is an error" (the implementation is not
under `src/`; the returned position is the behaviour the seek tests in
`src/tests/test-bitstream.cpp` rely on). -/
def bitSeek (st : BitPos) (off : Int) (dir : SeekDir) : Option (BitPos × Nat) :=
  let target : Int := seekBase st dir + off
  if 0 ≤ target ∧ target ≤ 8 * st.bytes.length then
    some ({ st with bitPos := target.toNat }, target.toNat)
  else none

/-- The value of the next `n`-bit read of a positioned bit stream: the read
starts exactly at the current bit position. -/
def bitReadAt (e : BitEndian) (n : Nat) (st : BitPos) : Nat :=
  readVal e n ((bytesBits e st.bytes).drop st.bitPos)

/-- Read `n`-bit values until EOF from the current position. -/
def bitReadSeqAt (e : BitEndian) (n : Nat) (st : BitPos) : List Nat :=
  readSeqBits e n ((bytesBits e st.bytes).drop st.bitPos)

/-- Replace the `n` bits starting at bit position `p` of a byte stream by
the low `n` bits of `v`, leaving every other bit intact (the straddled
bytes are read, modified and written back), extending the stream when the
write runs past EOF.  Modelled from the spec: §4.1 "write(n, value) writes
the low n bits of value" / "write past EOF extends the underlying stream
if it is writable" (`bitstream::write`, not under `src/`). -/
def bitOverwriteAt (e : BitEndian) (bytes : List Nat) (p n v : Nat) : List Nat :=
  bitsBytes e
    ((bytesBits e bytes).take p ++ valueBits e n v ++ (bytesBits e bytes).drop (p + n))

/-- `bitstream::write(n, v)` on a positioned bit stream: the write starts
exactly at the current bit position and the position advances by `n`. -/
def bitWriteAt (e : BitEndian) (st : BitPos) (n v : Nat) : BitPos :=
  ⟨bitOverwriteAt e st.bytes st.bitPos n v, st.bitPos + n⟩

/-- Seek and check the returned absolute bit position against an expected
value, as `BOOST_REQUIRE_EQUAL(p, expected)` does after each seek in the
`bitstream_rwseek_*` tests: the chain aborts (`none`) if the seek fails or
returns any other position. -/
def seekExpect (st : BitPos) (off : Int) (dir : SeekDir) (expected : Nat) :
    Option BitPos :=
  match bitSeek st off dir with
  | some (st', p) => if p = expected then some st' else none
  | none => none

/-- The five 8-bit writes opening `bitstream_rwseek_8bit` in
`src/tests/test-bitstream.cpp`. -/
def rw8Start : BitPos :=
  bitWriteAt .le (bitWriteAt .le (bitWriteAt .le (bitWriteAt .le
    (bitWriteAt .le ⟨[], 0⟩ 8 0xff) 8 0xfe) 8 0xdc) 8 0xba) 8 0x98

/-- The `bitstream_rwseek_8bit` test: after the opening writes, each seek
must return the expected bit position and the subsequent read or write
starts exactly there; the result collects the two read values and the
final backing bytes. -/
def rwseek8 : Option (Nat × Nat × List Nat) :=
  (seekExpect rw8Start 8 .beg 8).bind fun s1 =>
  (seekExpect s1 0 .beg 0).bind fun s2 =>
  (seekExpect (bitWriteAt .le s2 8 0x12) 32 .beg 32).bind fun s4 =>
  (seekExpect (bitWriteAt .le s4 8 0x9a) 16 .beg 16).bind fun s6 =>
  (seekExpect (bitWriteAt .le s6 8 0x56) 8 .beg 8).bind fun s8 =>
  (seekExpect (bitWriteAt .le s8 8 0x34) 24 .beg 24).bind fun s10 =>
  (seekExpect (bitWriteAt .le s10 8 0x78) 8 .beg 8).bind fun s12 =>
  some (bitReadAt .le 8 s1, bitReadAt .le 8 s12, s12.bytes)

/-- The 9-bit and 4-bit writes opening `bitstream_rwseek_9bit`. -/
def rw9Start : BitPos :=
  bitWriteAt .le (bitWriteAt .le (bitWriteAt .le (bitWriteAt .le
    (bitWriteAt .le ⟨[], 0⟩ 9 0x1ff) 9 0x1fe) 9 0x1dc) 9 0x1ba) 4 0x3

/-- The `bitstream_rwseek_9bit` test: seeks to bit positions 9, 0, 36, 18,
9, 27 and 9 each return the expected position, and the interleaved 9-bit
and 4-bit writes land exactly at those bits. -/
def rwseek9 : Option (Nat × Nat × List Nat) :=
  (seekExpect rw9Start 9 .beg 9).bind fun s1 =>
  (seekExpect s1 0 .beg 0).bind fun s2 =>
  (seekExpect (bitWriteAt .le s2 9 0x012) 36 .beg 36).bind fun s4 =>
  (seekExpect (bitWriteAt .le s4 4 0x9) 18 .beg 18).bind fun s6 =>
  (seekExpect (bitWriteAt .le s6 9 0x015) 9 .beg 9).bind fun s8 =>
  (seekExpect (bitWriteAt .le s8 9 0x11a) 27 .beg 27).bind fun s10 =>
  (seekExpect (bitWriteAt .le s10 9 0x14f) 9 .beg 9).bind fun s12 =>
  some (bitReadAt .le 9 s1, bitReadAt .le 9 s12, s12.bytes)

/-!
### Segmented stream

Modelled from the spec: §3 "Segmented stream state" and §4.3.  The
implementation translation unit (`segmented_stream.cpp`) is not under
`src/`; only its header `src/include/camoto/segmented_stream.hpp` and the
test corpus are.  A `segmented_stream_device` is three sources: *First*, a
range `[poffFirstStart, poffFirstEnd)` of the backing stream; *Second*, an
in-memory byte vector (`vcSecond`); *Third*, a nested device (`psegThird`,
null at the innermost level, modelled by the constructor `nil`).
-/

/-- The three-source rope of a `segmented_stream_device`. -/
inductive SegSrc : Type where
  | nil : SegSrc
  | mk (poffFirstStart poffFirstEnd : Nat) (vcSecond : List Nat) (psegThird : SegSrc) : SegSrc
deriving DecidableEq

/-- Logical length: `(FirstEnd − FirstStart) + |Second| + length Third`
(spec §3 invariant). -/
def segLength : SegSrc → Nat
  | .nil => 0
  | .mk fs fe sec t => (fe - fs) + sec.length + segLength t

/-- The logical byte sequence of the rope over backing stream `B`. -/
def segContent (B : List Nat) : SegSrc → List Nat
  | .nil => []
  | .mk fs fe sec t => ((B.take fe).drop fs) ++ sec ++ segContent B t

/-- Advance the logical start of a rope by `n` bytes, trimming bytes off
its leading First (spec §4.3: `remove(n)` shortens Third "by advancing its
own logical start by n ... which ultimately trims bytes off its leading
First"). -/
def segDrop : SegSrc → Nat → SegSrc
  | .nil, _ => .nil
  | .mk fs fe sec t, n =>
    if n ≤ fe - fs then .mk (fs + n) fe sec t
    else if n ≤ (fe - fs) + sec.length then .mk fe fe (sec.drop (n - (fe - fs))) t
    else segDrop t (n - (fe - fs) - sec.length)

/-- `segmented_stream_device::insert(lenInsert)` at cursor `pos`: split the
rope at the cursor, then append `n` zero bytes to Second.  Modelled from
the spec: §4.3 edit protocol ("If offPos is inside First: create a new
inner segmented stream capturing the tail of First plus the current Second
and Third; truncate First; clear Second; attach new inner as the new Third"
/ "If offPos is inside Second: split Second ... new Third wraps Second_tail
plus old Third" / "If offPos is inside Third: recursively delegate") and
"insert(n): append n zero-bytes to Second", §9 zero-fill on insert. -/
def segInsert : SegSrc → Nat → Nat → SegSrc
  | .nil, _, n => .mk 0 0 (List.replicate n 0) .nil
  | .mk fs fe sec t, pos, n =>
    if pos ≤ fe - fs then
      .mk fs (fs + pos) (List.replicate n 0) (.mk (fs + pos) fe sec t)
    else if pos ≤ (fe - fs) + sec.length then
      .mk fs fe (sec.take (pos - (fe - fs)) ++ List.replicate n 0)
        (.mk fe fe (sec.drop (pos - (fe - fs))) t)
    else
      .mk fs fe sec (segInsert t (pos - (fe - fs) - sec.length) n)

/-- `segmented_stream_device::remove(lenRemove)` at cursor `pos`: split at
the cursor and shorten the suffix by `n` bytes (spec §4.3). -/
def segRemove : SegSrc → Nat → Nat → SegSrc
  | .nil, _, _ => .nil
  | .mk fs fe sec t, pos, n =>
    if pos ≤ fe - fs then
      .mk fs (fs + pos) [] (segDrop (.mk (fs + pos) fe sec t) n)
    else if pos ≤ (fe - fs) + sec.length then
      .mk fs fe (sec.take (pos - (fe - fs)))
        (segDrop (.mk fe fe (sec.drop (pos - (fe - fs))) t) n)
    else
      .mk fs fe sec (segRemove t (pos - (fe - fs) - sec.length) n)

/-- `write(buf, n)` at cursor `pos`: split at the cursor, fill/extend
Second with the data, and logically consume the corresponding leading bytes
of Third (spec §4.3: "write(buf, n): fill/extend Second with n bytes ...
corresponding leading bytes of Third are logically consumed
(overwritten)"; a write extends the logical length past the end if
needed). -/
def segWrite : SegSrc → Nat → List Nat → SegSrc
  | .nil, _, data => .mk 0 0 data .nil
  | .mk fs fe sec t, pos, data =>
    if pos ≤ fe - fs then
      .mk fs (fs + pos) data (segDrop (.mk (fs + pos) fe sec t) data.length)
    else if pos ≤ (fe - fs) + sec.length then
      .mk fs fe (sec.take (pos - (fe - fs)) ++ data)
        (segDrop (.mk fe fe (sec.drop (pos - (fe - fs))) t) data.length)
    else
      .mk fs fe sec (segWrite t (pos - (fe - fs) - sec.length) data)

/-- A `camoto::segmented_stream` handle: the rope plus the single cursor
`offPos` into the logical sequence (spec §3). -/
structure SegState : Type where
  seg : SegSrc
  offPos : Nat
deriving DecidableEq

/-- A fresh segmented stream over a backing stream of `len` bytes: First
covers the whole backing, Second is empty, Third is null, cursor 0. -/
def segOpen (len : Nat) : SegState :=
  ⟨.mk 0 len [] .nil, 0⟩

/-- `seekp(pos)`: move the cursor. -/
def stSeekp (st : SegState) (pos : Nat) : SegState :=
  { st with offPos := pos }

/-- `insert(n)` at the cursor; the cursor is unchanged (spec §4.3). -/
def stInsert (st : SegState) (n : Nat) : SegState :=
  { st with seg := segInsert st.seg st.offPos n }

/-- `remove(n)` at the cursor; the cursor is unchanged (spec §4.3). -/
def stRemove (st : SegState) (n : Nat) : SegState :=
  { st with seg := segRemove st.seg st.offPos n }

/-- `write(buf, n)` at the cursor; the cursor advances by `n` (spec §4.3). -/
def stWrite (st : SegState) (data : List Nat) : SegState :=
  ⟨segWrite st.seg st.offPos data, st.offPos + data.length⟩

/-- `segmented_stream_device::commit(fnTruncate)` over backing `B`.
Modelled from the spec: §4.3 "Commit" — the single-pass directional copy
reconciles all pending edits so that the backing stream holds the logical
content, `truncate_cb` receives the total length, and afterwards "Second
and Third are cleared; First now covers
`[start_of_backing, start_of_backing + total_length)`"; the cursor is not
moved (§4.3 invariant "tellp reports the same value across a commit").
Returns the post-commit state, the new backing contents, and the length
passed to `truncate_cb`. -/
def segCommit (B : List Nat) (st : SegState) : SegState × List Nat × Nat :=
  let c := segContent B st.seg
  (⟨.mk 0 c.length [] .nil, st.offPos⟩, c, c.length)

/-- `camoto::streamMove(stream, src, dest, len)` applied to a segmented
stream.  Modelled from the spec: `iostream_helpers` is not under `src/`
and the spec lists it only as a collaborator; per the test corpus
(`segstream_streamMove_back` / `_forward`) the region copy is buffered —
the `len` source bytes are read out first and then written at the
destination, so the destination receives the original source bytes. -/
def streamMove (B : List Nat) (st : SegState) (src dest len : Nat) : SegState :=
  { st with seg := segWrite st.seg dest (((segContent B st.seg).drop src).take len) }

/-!
### Sub-stream and segmented stream over a sub-stream

Modelled from the spec: §4.2.  `substream(parent, offset, length)` exposes
`[0, length)` mapping to `[offset, offset+length)` in the parent;
`set_size` updates the bookkeeping only.  The implementation is not under
`src/`; the truncate callback `substreamTruncate` is taken from the test
source `src/tests/test-segmented_stream.cpp`.
-/

/-- Bookkeeping of a `camoto::substream`: `(offset, length)` into a parent
stream (spec §3 "Sub-stream"). -/
structure Substream : Type where
  offset : Nat
  size : Nat
deriving DecidableEq

/-- The window `[offset, offset+length)` of the parent's logical content
that the sub-stream exposes. -/
def subView (B : List Nat) (sub : Substream) (parent : SegState) : List Nat :=
  ((segContent B parent.seg).take (sub.offset + sub.size)).drop sub.offset

/-- The truncate callback of `segstream_insert_past_parent_eof`
(`substreamTruncate` in `src/tests/test-segmented_stream.cpp`): grow (or
shrink) the sub-stream inside the parent segmented stream by inserting
(removing) bytes at the end of the sub-stream's window, then update the
sub-stream's size bookkeeping. -/
def substreamTruncate (sub : Substream) (parent : SegState) (len : Nat) :
    Substream × SegState :=
  if sub.size ≤ len then
    ({ sub with size := len },
      stInsert (stSeekp parent (sub.offset + sub.size)) (len - sub.size))
  else
    ({ sub with size := len },
      stRemove (stSeekp parent (sub.offset + len)) (sub.size - len))

/-- Commit of a segmented stream whose backing is a sub-stream of a parent
segmented stream.  Modelled from the spec: §4.3 "Interaction with
constrained parents" — the backing sub-stream cannot grow by itself, so
growth is mediated by the truncate callback, which makes the sub-stream ask
its parent to grow by insert at the correct offset first; the reconciled
child content is then written through the sub-stream's window into the
parent.  Returns the updated sub-stream bookkeeping and parent state. -/
def commitThroughSub (B : List Nat) (child : SegState) (sub : Substream)
    (parent : SegState) : Substream × SegState :=
  let c := segContent (subView B sub parent) child.seg
  let grown := substreamTruncate sub parent c.length
  (grown.1, { grown.2 with seg := segWrite grown.2.seg sub.offset c })

/-!
### Filtered stream

Modelled from the spec: §4.4 and §4.5.  The implementation
(`stream_filtered`, `filter_dummy`) is not under `src/`; only its test
corpus `src/tests/test-stream_filtered.cpp` is.  A filtered stream holds a
materialised decoded cache plus a dirty flag; `flush` re-encodes the cache
through the write filter, writes it to the backing and reports the encoded
length to the truncate callback.
-/

/-- The identity filter (`camoto::filter_dummy`): copies input to output
one-to-one (spec §4.5). -/
def filterDummy (l : List Nat) : List Nat := l

/-- Overwrite a stream at byte position `pos` with `data`, extending it
when the write runs past the end. -/
def listWriteAt (l : List Nat) (pos : Nat) (data : List Nat) : List Nat :=
  l.take pos ++ List.replicate (pos - l.length) 0 ++ data ++ l.drop (pos + data.length)

/-- State of a `camoto::stream::filtered`: the materialised decoded cache
and the dirty flag (spec §3 "Filtered stream state"). -/
structure Filtered : Type where
  cache : List Nat
  dirty : Bool
deriving DecidableEq

/-- `open`: on first use the decoded view is the backing pulled through the
read filter (here `filter_dummy`), cached (spec §4.4). -/
def fOpen (backing : List Nat) : Filtered :=
  ⟨filterDummy backing, false⟩

/-- Write into the decoded cache at `pos`, setting the dirty flag. -/
def fWrite (f : Filtered) (pos : Nat) (data : List Nat) : Filtered :=
  ⟨listWriteAt f.cache pos data, true⟩

/-- `truncate(n)`: resize the decoded view. -/
def fTruncate (f : Filtered) (n : Nat) : Filtered :=
  ⟨f.cache.take n ++ List.replicate (n - f.cache.length) 0, true⟩

/-- `size()`: the decoded length, the view the caller manipulates
(spec §4.4). -/
def fSize (f : Filtered) : Nat :=
  f.cache.length

/-- `flush` of a filtered stream sitting directly on a raw byte stream:
run the write filter (`filter_dummy`) over the cache, write the result to
the backing and hand the encoded length to the truncate callback.  Returns
the cleaned state, the new backing and the length reported to the
callback (spec §4.4). -/
def fFlush (f : Filtered) : Filtered × List Nat × Nat :=
  (⟨f.cache, false⟩, filterDummy f.cache, (filterDummy f.cache).length)

/-- `flush` of an outer filtered stream whose backing is an inner filtered
stream: the encoded outer cache is written to the inner decoded view, the
inner stream is resized to the encoded length, and the inner stream is
flushed in turn, propagating the size all the way down (spec §4.4
"Chaining").  Returns the cleaned outer state, the flushed inner state, the
new bottom backing, the length reported to the outer callback and the
length reported to the inner callback. -/
def fFlushOuter (outer inner : Filtered) :
    Filtered × Filtered × List Nat × Nat × Nat :=
  let enc := filterDummy outer.cache
  let inner' := fTruncate (fWrite inner 0 enc) enc.length
  let flushed := fFlush inner'
  (⟨outer.cache, false⟩, flushed.1, flushed.2.1, enc.length, flushed.2.2)

/-!
### Concrete test corpus inputs
-/

/-- The backing bytes `"ABCDEFGHIJKLMNOPQRSTUVWXYZ"` used throughout the
segmented stream and filtered stream tests. -/
def az : List Nat := (List.range 26).map (65 + ·)

/-- The bytes of `"1234567890"`. -/
def digits10 : List Nat := [49, 50, 51, 52, 53, 54, 55, 56, 57, 48]

/-- The bytes of `"!@#$%"`. -/
def bang5 : List Nat := [33, 64, 35, 36, 37]

end Camoto



namespace Camoto

/-!
### Bit packing lemmas

Helper lemmas about the bit-level codec, used by the round-trip theorem.
-/

theorem natBits_length (n v : Nat) : (natBits n v).length = n := by
  induction n generalizing v with
  | zero => rfl
  | succ k ih => simp [natBits, ih]

theorem natBits_lt_two (n v : Nat) : ∀ b ∈ natBits n v, b < 2 := by
  induction n generalizing v with
  | zero => simp [natBits]
  | succ k ih =>
    intro b hb
    simp only [natBits, List.mem_cons] at hb
    rcases hb with h | h
    · omega
    · exact ih (v / 2) b h

theorem bitsLE_natBits (n v : Nat) (h : v < 2 ^ n) : bitsLE (natBits n v) = v := by
  induction n generalizing v with
  | zero =>
    have : v = 0 := by simpa using h
    simp [this, natBits, bitsLE]
  | succ k ih =>
    have h2 : 2 ^ (k + 1) = 2 * 2 ^ k := by ring
    have hdiv : v / 2 < 2 ^ k := by omega
    simp only [natBits, bitsLE, ih (v / 2) hdiv]
    omega

theorem natBits_bitsLE (l : List Nat) (hb : ∀ b ∈ l, b < 2) :
    natBits l.length (bitsLE l) = l := by
  induction l with
  | nil => rfl
  | cons b r ih =>
    have hb0 : b < 2 := hb b (by simp)
    have hr : ∀ x ∈ r, x < 2 := fun x hx => hb x (by simp [hx])
    simp only [List.length_cons, natBits, bitsLE]
    have hhead : (b + 2 * bitsLE r) % 2 = b := by omega
    have htail : (b + 2 * bitsLE r) / 2 = bitsLE r := by omega
    rw [hhead, htail, ih hr]

theorem bitsLE_append (l₁ l₂ : List Nat) :
    bitsLE (l₁ ++ l₂) = bitsLE l₁ + 2 ^ l₁.length * bitsLE l₂ := by
  induction l₁ with
  | nil => simp [bitsLE]
  | cons b r ih =>
    simp only [List.cons_append, bitsLE, List.append_eq, ih, List.length_cons]
    ring

theorem bitsBE_eq_rev (l : List Nat) : bitsBE l.length l = bitsLE l.reverse := by
  induction l with
  | nil => rfl
  | cons b r ih =>
    simp only [List.length_cons, List.reverse_cons, bitsBE, Nat.add_sub_cancel,
      bitsLE_append, List.length_reverse, ih, bitsLE]
    ring

theorem valueBits_length (e : BitEndian) (n v : Nat) : (valueBits e n v).length = n := by
  cases e <;> simp [valueBits, natBits_length]

theorem valueBits_lt_two (e : BitEndian) (n v : Nat) : ∀ b ∈ valueBits e n v, b < 2 := by
  cases e with
  | le => exact natBits_lt_two n v
  | be =>
    intro b hb
    exact natBits_lt_two n v b (List.mem_reverse.mp hb)

theorem readVal_chunk (e : BitEndian) (n v : Nat) (rest : List Nat) (hv : v < 2 ^ n) :
    readVal e n (valueBits e n v ++ rest) = v := by
  have hl : (valueBits e n v).length = n := valueBits_length e n v
  have htake : (valueBits e n v ++ rest).take n = valueBits e n v :=
    List.take_left' hl
  cases e with
  | le => simp only [readVal, valueBits] at htake ⊢; rw [htake, bitsLE_natBits n v hv]
  | be =>
    simp only [readVal, valueBits] at htake ⊢
    rw [htake]
    have h8 : bitsBE n (natBits n v).reverse = bitsLE (natBits n v).reverse.reverse := by
      have := bitsBE_eq_rev (natBits n v).reverse
      rwa [List.length_reverse, natBits_length] at this
    rw [h8, List.reverse_reverse, bitsLE_natBits n v hv]

theorem byteBits_byteVal (e : BitEndian) (c : List Nat) (h8 : c.length = 8)
    (hb : ∀ b ∈ c, b < 2) : byteBits e (byteVal e c) = c := by
  cases e with
  | le =>
    simp only [byteBits, byteVal, valueBits]
    rw [← h8, natBits_bitsLE c hb]
  | be =>
    simp only [byteBits, byteVal, valueBits]
    have h1 : bitsBE 8 c = bitsLE c.reverse := by rw [← h8]; exact bitsBE_eq_rev c
    have h2 : (8 : Nat) = c.reverse.length := by simp [h8]
    rw [h1, h2, natBits_bitsLE c.reverse (fun b hb' => hb b (List.mem_reverse.mp hb')),
      List.reverse_reverse]

theorem bytesBits_bitsBytesAux (e : BitEndian) :
    ∀ (fuel : Nat) (L : List Nat), L.length ≤ fuel → 8 ∣ L.length → (∀ b ∈ L, b < 2) →
      bytesBits e (bitsBytesAux e fuel L) = L := by
  intro fuel
  induction fuel with
  | zero =>
    intro L hf _ _
    have : L = [] := List.eq_nil_of_length_eq_zero (by omega)
    subst this
    rfl
  | succ f ih =>
    intro L hf h8 hb
    cases L with
    | nil => rfl
    | cons x r =>
      have hlc : (x :: r).length = r.length + 1 := by simp
      rw [hlc] at hf h8
      have hlen : 8 ≤ r.length + 1 := by omega
      have h1 : byteBits e (byteVal e ((x :: r).take 8)) = (x :: r).take 8 :=
        byteBits_byteVal e _ (by rw [List.length_take, hlc]; omega)
          (fun b hb' => hb b (List.mem_of_mem_take hb'))
      have h2 : bytesBits e (bitsBytesAux e f ((x :: r).drop 8)) = (x :: r).drop 8 :=
        ih _ (by rw [List.length_drop, hlc]; omega)
          (by rw [List.length_drop, hlc]; omega)
          (fun b hb' => hb b (List.mem_of_mem_drop hb'))
      calc bytesBits e (bitsBytesAux e (f + 1) (x :: r))
          = byteBits e (byteVal e ((x :: r).take 8))
              ++ bytesBits e (bitsBytesAux e f ((x :: r).drop 8)) := rfl
        _ = (x :: r).take 8 ++ (x :: r).drop 8 := by rw [h1, h2]
        _ = x :: r := List.take_append_drop 8 (x :: r)

theorem bytesBits_bitsBytes (e : BitEndian) (L : List Nat) (h8 : 8 ∣ L.length)
    (hb : ∀ b ∈ L, b < 2) : bytesBits e (bitsBytes e L) = L :=
  bytesBits_bitsBytesAux e L.length L (le_refl _) h8 hb

theorem readSeqAux_cons (e : BitEndian) (n f : Nat) (L : List Nat) (h : L ≠ []) :
    readSeqAux e n (f + 1) L = readVal e n L :: readSeqAux e n f (L.drop n) := by
  cases L with
  | nil => exact absurd rfl h
  | cons b r => rfl

theorem readSeqAux_chunks (e : BitEndian) (n : Nat) (hn : 1 ≤ n) :
    ∀ (vs rest : List Nat) (fuel : Nat),
      (∀ v ∈ vs, v < 2 ^ n) →
      ((vs.map (valueBits e n)).flatten ++ rest).length ≤ fuel →
      (readSeqAux e n fuel ((vs.map (valueBits e n)).flatten ++ rest)).take vs.length = vs := by
  intro vs
  induction vs with
  | nil => intro rest fuel _ _; simp
  | cons v vs' ih =>
    intro rest fuel hv hf
    have hL : ((v :: vs').map (valueBits e n)).flatten ++ rest
        = valueBits e n v ++ ((vs'.map (valueBits e n)).flatten ++ rest) := by
      simp [List.append_assoc]
    rw [hL] at hf ⊢
    have hvlen : (valueBits e n v).length = n := valueBits_length e n v
    have hlen : (valueBits e n v ++ ((vs'.map (valueBits e n)).flatten ++ rest)).length
        = n + ((vs'.map (valueBits e n)).flatten ++ rest).length := by
      simp [hvlen]
    have hne : valueBits e n v ++ ((vs'.map (valueBits e n)).flatten ++ rest) ≠ [] := by
      intro hc
      rw [hc] at hlen
      simp at hlen
      omega
    obtain ⟨f, rfl⟩ : ∃ f, fuel = f + 1 := by
      cases fuel with
      | zero => exfalso; omega
      | succ f => exact ⟨f, rfl⟩
    rw [readSeqAux_cons e n f _ hne]
    have hdrop : (valueBits e n v ++ ((vs'.map (valueBits e n)).flatten ++ rest)).drop n
        = (vs'.map (valueBits e n)).flatten ++ rest :=
      List.drop_left' hvlen
    rw [hdrop, readVal_chunk e n v _ (hv v (by simp)), List.length_cons, List.take_succ_cons]
    rw [ih rest f (fun x hx => hv x (by simp [hx])) (by omega)]

/-!
### Claim theorems
-/

/-- C1: For the bit stream over input bytes `0x12 0x34 0x56 0x78 0x9a`,
reading repeatedly at a fixed width until EOF yields exactly the listed
value sequences for 9-, 12- and 17-bit widths at both endiannesses, the
final element of each sequence being the partial value assembled from the
bits remaining before EOF. -/
theorem claim_C1 :
    readSeqBytes .le 9 dataBytes = [0x012, 0x11a, 0x015, 0x14f, 0x009] ∧
    readSeqBytes .be 9 dataBytes = [0x024, 0x0d1, 0x0b3, 0x189, 0x140] ∧
    readSeqBytes .le 12 dataBytes = [0x412, 0x563, 0xa78, 0x009] ∧
    readSeqBytes .be 12 dataBytes = [0x123, 0x456, 0x789, 0xa00] ∧
    readSeqBytes .le 17 dataBytes = [0x03412, 0x13c2b, 0x026] ∧
    readSeqBytes .be 17 dataBytes = [0x02468, 0x159e2, 0x0d000] := by
  refine ⟨?_, ?_, ?_, ?_, ?_, ?_⟩ <;> decide

/-- C2: For every bit width `1 ≤ n ≤ 32` and endianness, writing any
sequence of `n`-bit values through the bit stream (padding the final byte)
and then reading back from the start at the same width and endianness
reproduces the original sequence exactly; the extra padding bits beyond
the written values are tolerated (only the first `|vs|` values are
compared). -/
theorem claim_C2 (e : BitEndian) (n : Nat) (vs : List Nat)
    (h1 : 1 ≤ n) (h2 : n ≤ 32) (hv : ∀ v ∈ vs, v < 2 ^ n) :
    (readSeqBytes e n (writeBytes e n vs)).take vs.length = vs := by
  have hbits : ∀ b ∈ padTo8 ((vs.map (valueBits e n)).flatten), b < 2 := by
    intro b hb
    rcases List.mem_append.mp hb with h | h
    · rcases List.mem_flatten.mp h with ⟨l, hl, hbl⟩
      rcases List.mem_map.mp hl with ⟨v, _, rfl⟩
      exact valueBits_lt_two e n v b hbl
    · have := List.eq_of_mem_replicate h
      omega
  have hdvd : 8 ∣ (padTo8 ((vs.map (valueBits e n)).flatten)).length := by
    simp only [padTo8, List.length_append, List.length_replicate]
    omega
  have hun : bytesBits e (bitsBytes e (padTo8 ((vs.map (valueBits e n)).flatten)))
      = padTo8 ((vs.map (valueBits e n)).flatten) :=
    bytesBits_bitsBytes e _ hdvd hbits
  rw [readSeqBytes, writeBytes, hun, readSeqBits, if_neg (by omega), padTo8]
  exact readSeqAux_chunks e n h1 vs (List.replicate _ 0) _ hv (le_refl _)

/-- C2 witness: the 9-bit little-endian table round-trips. -/
theorem claim_C2_witness :
    ((1 ≤ 9 ∧ 9 ≤ 32) ∧ ∀ v ∈ [0x012, 0x11a, 0x015, 0x14f, 0x009], v < 2 ^ 9) ∧
    (readSeqBytes .le 9 (writeBytes .le 9 [0x012, 0x11a, 0x015, 0x14f, 0x009])).take 5
      = [0x012, 0x11a, 0x015, 0x14f, 0x009] :=
  ⟨⟨⟨by decide, by decide⟩, by decide⟩,
    claim_C2 .le 9 [0x012, 0x11a, 0x015, 0x14f, 0x009] (by decide) (by decide) (by decide)⟩

end Camoto

namespace Camoto

/-- C3: Bit-stream flush of a partial byte performs a read-modify-write
that merges the buffered bits with the untouched bits already in the
backing byte, and leaves the underlying cursor where it was before the
flush: with backing byte `0xFF` in big-endian mode, `write(4, 0)` then
`flush` leaves backing `0x0F`; with backing byte `0x02`, `write(4, 0xD)`
then `flush` leaves `0xD2`, and a subsequent `write(4, 0xD)` then `flush`
leaves `0xDD`. -/
theorem claim_C3 :
    (∀ (e : BitEndian) (st : BitWriter), (bwFlush e st).pos = st.pos) ∧
    (bwFlush .be (bwWrite .be ⟨[0xff], 0, []⟩ 4 0)).backing = [0x0f] ∧
    (bwFlush .be (bwWrite .be ⟨[0x02], 0, []⟩ 4 0xd)).backing = [0xd2] ∧
    (bwFlush .be (bwWrite .be
        (bwFlush .be (bwWrite .be ⟨[0x02], 0, []⟩ 4 0xd)) 4 0xd)).backing = [0xdd] := by
  refine ⟨fun e st => ?_, by decide, by decide, by decide⟩
  rw [bwFlush]
  split <;> rfl

/-- C4: Bytes inserted into a segmented stream but never overwritten are
committed to the backing stream as zero bytes: over
`"ABCDEFGHIJKLMNOPQRSTUVWXYZ"`, `seekp(20); insert(15);
write("1234567890")` commits to
`"ABCDEFGHIJKLMNOPQRST1234567890\0\0\0\0\0UVWXYZ"`, the five unwritten
inserted bytes becoming zeroes. -/
theorem claim_C4 :
    (segCommit az (stWrite (stInsert (stSeekp (segOpen 26) 20) 15) digits10)).2.1
      = az.take 20 ++ digits10 ++ [0, 0, 0, 0, 0] ++ az.drop 20 := by
  decide

/-- C5: commit is idempotent on the segmented stream: after a commit, the
Second and Third sources are empty (at every recursive level, the rope
being a single flat First range), so committing a second time with no
intervening edits leaves the backing contents identical and reports the
same total length to the truncate callback. -/
theorem claim_C5 (B : List Nat) (st : SegState) :
    (segCommit B st).1.seg = SegSrc.mk 0 (segCommit B st).2.2 [] .nil ∧
    segCommit (segCommit B st).2.1 (segCommit B st).1 = segCommit B st := by
  refine ⟨rfl, ?_⟩
  show segCommit (segContent B st.seg) _ = _
  simp [segCommit, segContent, List.take_length]

/-- C6: When two identity-filtered streams are stacked, writing through
the outer, truncating it to 24 bytes and flushing propagates the new size
through every layer: the outer truncate callback receives 24 and the inner
truncate callback also receives 24, with `size()` of each layer reporting
the truncated decoded length (and the bottom backing holding the 24
truncated bytes `"ABCDEFGHIJ1!@#$%7890UVWX"`). -/
theorem claim_C6 :
    (fFlush (fTruncate (fWrite (fOpen az) 10 digits10) 25)).2.2 = 25 ∧
    fSize (fFlush (fTruncate (fWrite (fOpen az) 10 digits10) 25)).1 = 25 ∧
    (fFlushOuter
        (fTruncate (fWrite (fOpen
          (fFlush (fTruncate (fWrite (fOpen az) 10 digits10) 25)).1.cache) 11 bang5) 24)
        (fFlush (fTruncate (fWrite (fOpen az) 10 digits10) 25)).1).2.2.2.1 = 24 ∧
    (fFlushOuter
        (fTruncate (fWrite (fOpen
          (fFlush (fTruncate (fWrite (fOpen az) 10 digits10) 25)).1.cache) 11 bang5) 24)
        (fFlush (fTruncate (fWrite (fOpen az) 10 digits10) 25)).1).2.2.2.2 = 24 ∧
    fSize (fFlushOuter
        (fTruncate (fWrite (fOpen
          (fFlush (fTruncate (fWrite (fOpen az) 10 digits10) 25)).1.cache) 11 bang5) 24)
        (fFlush (fTruncate (fWrite (fOpen az) 10 digits10) 25)).1).1 = 24 ∧
    fSize (fFlushOuter
        (fTruncate (fWrite (fOpen
          (fFlush (fTruncate (fWrite (fOpen az) 10 digits10) 25)).1.cache) 11 bang5) 24)
        (fFlush (fTruncate (fWrite (fOpen az) 10 digits10) 25)).1).2.1 = 24 ∧
    (fFlushOuter
        (fTruncate (fWrite (fOpen
          (fFlush (fTruncate (fWrite (fOpen az) 10 digits10) 25)).1.cache) 11 bang5) 24)
        (fFlush (fTruncate (fWrite (fOpen az) 10 digits10) 25)).1).2.2.1
      = az.take 10 ++ [49] ++ bang5 ++ [55, 56, 57, 48] ++ [85, 86, 87, 88] := by
  refine ⟨?_, ?_, ?_, ?_, ?_, ?_, ?_⟩ <;> decide

/-- C7: A segmented stream over a sub-stream can grow past the
sub-stream's fixed bounds via the truncate callback: with backing
`B = "ABCDEFGHIJKLMNOPQRSTUVWXYZ"` under a segmented stream,
`sub = B[15..25]`, and a segmented stream `C` over `sub`, the sequence
`C.seekp(8); C.insert(5); C.commit(grow_sub_via_B)` produces
`B = "ABCDEFGHIJKLMNOPQRSTUVW\0\0\0\0\0XYZ"` and leaves
`sub.size() == 15`. -/
theorem claim_C7 :
    (segCommit az ((commitThroughSub az (stInsert (stSeekp (segOpen 10) 8) 5) ⟨15, 10⟩
        (segOpen 26)).2)).2.1
      = az.take 23 ++ [0, 0, 0, 0, 0] ++ [88, 89, 90] ∧
    ((commitThroughSub az (stInsert (stSeekp (segOpen 10) 8) 5) ⟨15, 10⟩
        (segOpen 26)).1).size = 15 := by
  refine ⟨?_, ?_⟩ <;> decide

/-- C8: commit does not move the segmented stream's write cursor: `tellp`
returns the same value immediately before and immediately after commit
when no seek occurs in between; in particular after
`seekp(5); write("123456")` the cursor is 11 both before and after the
commit (whose result is `"ABCDE123456LMNOPQRSTUVWXYZ"`). -/
theorem claim_C8 :
    (∀ (B : List Nat) (st : SegState), (segCommit B st).1.offPos = st.offPos) ∧
    (stWrite (stSeekp (segOpen 26) 5) [49, 50, 51, 52, 53, 54]).offPos = 11 ∧
    (segCommit az (stWrite (stSeekp (segOpen 26) 5) [49, 50, 51, 52, 53, 54])).1.offPos = 11 ∧
    (segCommit az (stWrite (stSeekp (segOpen 26) 5) [49, 50, 51, 52, 53, 54])).2.1
      = az.take 5 ++ [49, 50, 51, 52, 53, 54] ++ az.drop 11 :=
  ⟨fun _ _ => rfl, by decide, by decide, by decide⟩

/-- C9: `streamMove`, applied to a segmented stream, has memmove semantics
for overlapping ranges: over `"ABCDEFGHIJKLMNOPQRSTUVWXYZ"`, moving 10
bytes from offset 10 to offset 5 (overlapping, backwards) commits to
`"ABCDEKLMNOPQRSTPQRSTUVWXYZ"`, and moving 10 bytes from offset 10 to
offset 15 (overlapping, forwards) commits to
`"ABCDEFGHIJKLMNOKLMNOPQRSTZ"` — the destination receives the original
source bytes. -/
theorem claim_C9 :
    (segCommit az (streamMove az (segOpen 26) 10 5 10)).2.1
      = az.take 5 ++ (az.drop 10).take 10 ++ az.drop 15 ∧
    (segCommit az (streamMove az (segOpen 26) 10 15 10)).2.1
      = az.take 15 ++ (az.drop 10).take 10 ++ az.drop 25 := by
  refine ⟨?_, ?_⟩ <;> decide

/-- C10: `bitstream::seek` returns the resulting absolute position in
bits: every in-range `seek(off, dir)` returns exactly the resolved target
position and repositions the stream there without touching the bytes, so
that a subsequent read assembles the bits starting exactly at that bit and
a subsequent write replaces the bits starting exactly at that bit.
Concretely, the two read/write/seek tests hold: every seek of
`bitstream_rwseek_8bit` and `bitstream_rwseek_9bit` returns its expected
position (8, 0, 32, 16, 8, 24, 8 and 9, 0, 36, 18, 9, 27, 9) and the
interleaved reads and writes, landing at those bits, produce the expected
read values and the final backing `0x12 0x34 0x56 0x78 0x9a`. -/
theorem claim_C10 (st : BitPos) (off : Int) (dir : SeekDir) (out : BitPos × Nat)
    (h : bitSeek st off dir = some out) :
    ((out.2 : Int) = seekBase st dir + off ∧
      out.1.bitPos = out.2 ∧
      out.1.bytes = st.bytes ∧
      (∀ (e : BitEndian) (n : Nat),
        bitReadAt e n out.1 = readVal e n ((bytesBits e st.bytes).drop out.2)) ∧
      (∀ (e : BitEndian) (n v : Nat),
        bitWriteAt e out.1 n v = ⟨bitOverwriteAt e st.bytes out.2 n v, out.2 + n⟩)) ∧
    rwseek8 = some (0xfe, 0x34, dataBytes) ∧
    rwseek9 = some (0x1fe, 0x11a, dataBytes) := by
  refine ⟨?_, by decide, by decide⟩
  rw [bitSeek] at h
  split at h
  · rename_i hcond
    injection h with h'
    subst h'
    exact ⟨Int.toNat_of_nonneg hcond.1, rfl, rfl, fun e n => rfl, fun e n v => rfl⟩
  · exact absurd h (by simp)

/-- C10 witness: after reading 11 bits of the test data, `seek(+5, cur)`
returns bit position 16 and the next read and the next write start there. -/
theorem claim_C10_witness :
    bitSeek ⟨dataBytes, 11⟩ 5 .cur = some (⟨dataBytes, 16⟩, 16) ∧
    (((16 : Nat) : Int) = seekBase ⟨dataBytes, 11⟩ .cur + 5 ∧
      (⟨dataBytes, 16⟩ : BitPos).bitPos = 16 ∧
      (⟨dataBytes, 16⟩ : BitPos).bytes = dataBytes ∧
      (∀ (e : BitEndian) (n : Nat),
        bitReadAt e n ⟨dataBytes, 16⟩ = readVal e n ((bytesBits e dataBytes).drop 16)) ∧
      (∀ (e : BitEndian) (n v : Nat),
        bitWriteAt e ⟨dataBytes, 16⟩ n v = ⟨bitOverwriteAt e dataBytes 16 n v, 16 + n⟩)) ∧
    rwseek8 = some (0xfe, 0x34, dataBytes) ∧
    rwseek9 = some (0x1fe, 0x11a, dataBytes) :=
  ⟨by decide, claim_C10 ⟨dataBytes, 11⟩ 5 .cur (⟨dataBytes, 16⟩, 16) (by decide)⟩

end Camoto

